import Mathlib

/-!
Verification of the ABI-details query layer (`IRABIDetailsProvider`).

The repository ships the public interface (`include/swift/IRGen/IRABIDetailsProvider.h`)
together with a few inline member functions; the out-of-line implementations of the
query methods are not part of the repository snapshot.  Accordingly, the inline
members (`ABIAdditionalParam`'s role accessor and the two asserting payload
accessors) are embedded directly from the header, while the behaviour of the
out-of-line queries is modelled from the specification, as marked on each
definition.
-/

namespace IRABIDetails

/-- Modelled from the spec: the typed declaration graph's semantic type
representation (the header only references the opaque `Type`/`CanType` from the
AST).  A type is a primitive with a known size and alignment, an aggregate
record of fields laid out in order, a weak reference (fixed layout but
non-trivial copy semantics), a resilient external type (layout not statically
fixed), or an unresolved generic parameter (layout not statically fixed). -/
inductive Ty where
  | prim (name : String) (size : Nat) (align : Nat)
  | record (fields : List Ty)
  | weakRef
  | resilient
  | genericParam (idx : Nat)
deriving Repr

/-- Rounds `n` up to the next multiple of `a` (identity when `a = 0`). -/
def alignUp (n a : Nat) : Nat :=
  if a = 0 then n else (n + a - 1) / a * a

theorem le_alignUp (n a : Nat) : n ≤ alignUp n a := by
  unfold alignUp
  split
  · exact Nat.le_refl n
  · rename_i h
    have ha : 0 < a := Nat.pos_of_ne_zero h
    have h1 : (n + a - 1) % a < a := Nat.mod_lt _ ha
    have h2 := Nat.div_add_mod (n + a - 1) a
    have h3 : (n + a - 1) / a * a = a * ((n + a - 1) / a) := Nat.mul_comm _ _
    omega

mutual

/-- Modelled from the spec: the layout subsystem's alignment computation for a
fixed-layout type.  A record's alignment is the maximum alignment of its
fields; a weak reference is pointer-aligned. -/
def Ty.alignment : Ty → Nat
  | .prim _ _ a => a
  | .record fs => alignmentList fs
  | .weakRef => 8
  | .resilient => 1
  | .genericParam _ => 1

/-- Maximum alignment over a list of field types (at least 1). -/
def alignmentList : List Ty → Nat
  | [] => 1
  | t :: ts => max (Ty.alignment t) (alignmentList ts)

end

mutual

/-- Modelled from the spec: the layout subsystem's byte-size computation for a
fixed-layout type.  Record fields are placed at offsets rounded up to the
field's alignment, and the record size is rounded up to the record's own
alignment; only meaningful on fixed-layout types. -/
def Ty.size : Ty → Nat
  | .prim _ s _ => s
  | .record fs => alignUp (sizeList fs 0) (alignmentList fs)
  | .weakRef => 8
  | .resilient => 0
  | .genericParam _ => 0

/-- Folds field layout: given the running in-record offset, returns the offset
just past the last field. -/
def sizeList : List Ty → Nat → Nat
  | [], off => off
  | t :: ts, off => sizeList ts (alignUp off t.alignment + t.size)

end

mutual

/-- Modelled from the spec: whether the type's layout is statically fixed at
compile time (resilient external types and unresolved generic parameters are
not fixed; an aggregate is fixed iff all of its fields are). -/
def Ty.isFixedLayout : Ty → Bool
  | .prim _ _ _ => true
  | .record fs => fixedList fs
  | .weakRef => true
  | .resilient => false
  | .genericParam _ => false

/-- All field types have statically fixed layout. -/
def fixedList : List Ty → Bool
  | [] => true
  | t :: ts => t.isFixedLayout && fixedList ts

end

mutual

/-- Modelled from the spec: whether the type has trivial (bitwise) copy/move
semantics.  A weak reference has non-trivial copy behaviour; an aggregate is
trivial iff all of its fields are. -/
def Ty.isTrivial : Ty → Bool
  | .prim _ _ _ => true
  | .record fs => trivialList fs
  | .weakRef => false
  | .resilient => false
  | .genericParam _ => false

/-- All field types are trivially copyable. -/
def trivialList : List Ty → Bool
  | [] => true
  | t :: ts => t.isTrivial && trivialList ts

end

mutual

/-- Well-formedness of the type model: every primitive has a positive size and
a positive alignment (machine primitives are never empty). -/
def Ty.wf : Ty → Bool
  | .prim _ s a => decide (0 < s) && decide (0 < a)
  | .record fs => wfList fs
  | .weakRef => true
  | .resilient => true
  | .genericParam _ => true

/-- All field types are well-formed. -/
def wfList : List Ty → Bool
  | [] => true
  | t :: ts => t.wf && wfList ts

end

mutual

/-- The in-order list of leaf primitive member types of a type. -/
def Ty.leaves : Ty → List Ty
  | .prim n s a => [.prim n s a]
  | .record fs => leavesList fs
  | .weakRef => []
  | .resilient => []
  | .genericParam _ => []

/-- Concatenated leaves of a list of field types. -/
def leavesList : List Ty → List Ty
  | [] => []
  | t :: ts => t.leaves ++ leavesList ts

end

/-- One flattened record member: byte offset, byte size, and semantic type, as
supplied to the `enumerateDirectPassingRecordMembers` callback. -/
structure RecordMember where
  offset : Nat
  size : Nat
  type : Ty
deriving Repr

mutual

/-- Modelled from the spec: the record-flattening engine underlying
`enumerateDirectPassingRecordMembers` and `enumerateRecordMembers` (the
out-of-line implementation is not in the repository snapshot).  Flattens the
type placed at absolute byte offset `base` into its leaf primitive members;
`none` models the boolean failure flag raised when a member cannot be
represented as a primitive (weak references with non-trivial copy semantics,
resilient types, unresolved generic parameters). -/
def flattenAt : Ty → Nat → Option (List RecordMember)
  | .prim n s a, base => some [⟨base, s, .prim n s a⟩]
  | .record fs, base => flattenFields fs base 0
  | .weakRef, _ => none
  | .resilient, _ => none
  | .genericParam _, _ => none

/-- Flattens the fields of a record that starts at absolute offset `base`,
with `rel` the running in-record offset. -/
def flattenFields : List Ty → Nat → Nat → Option (List RecordMember)
  | [], _, _ => some []
  | t :: ts, base, rel =>
    match flattenAt t (base + alignUp rel t.alignment),
          flattenFields ts base (alignUp rel t.alignment + t.size) with
    | some ms, some rest => some (ms ++ rest)
    | _, _ => none

end

/-- Modelled from the spec: `IRABIDetailsProvider::enumerateDirectPassingRecordMembers`;
`none` models the error return (`true` flag) of the header's callback API. -/
def enumerateDirectPassingRecordMembers (t : Ty) : Option (List RecordMember) :=
  flattenAt t 0

/-- `IRABIDetailsProvider::SizeAndAlignment` from the header. -/
structure SizeAndAlignment where
  size : Nat
  alignment : Nat
deriving Repr, DecidableEq

/-- Modelled from the spec: `IRABIDetailsProvider::getTypeSizeAlignment` —
returns `none` if the type is not a fixed-layout type, and otherwise the exact
byte size and alignment computed by the layout subsystem. -/
def getTypeSizeAlignment (t : Ty) : Option SizeAndAlignment :=
  if t.isFixedLayout then some ⟨t.size, t.alignment⟩ else none

/-- Every member starts at or after `lo`, has positive size, and the members
are laid out left to right without overlap. -/
def Ordered : Nat → List RecordMember → Prop
  | _, [] => True
  | lo, m :: ms => lo ≤ m.offset ∧ 0 < m.size ∧ Ordered (m.offset + m.size) ms

/-- Every member's extent ends at or before `hi`. -/
def EndsBy (hi : Nat) (ms : List RecordMember) : Prop :=
  ∀ m ∈ ms, m.offset + m.size ≤ hi

theorem Ordered_mono {lo lo' : Nat} {ms : List RecordMember}
    (h : Ordered lo ms) (hle : lo' ≤ lo) : Ordered lo' ms := by
  cases ms with
  | nil => trivial
  | cons m ms =>
    simp only [Ordered] at h ⊢
    exact ⟨Nat.le_trans hle h.1, h.2.1, h.2.2⟩

theorem EndsBy_mono {hi hi' : Nat} {ms : List RecordMember}
    (h : EndsBy hi ms) (hle : hi ≤ hi') : EndsBy hi' ms :=
  fun m hm => Nat.le_trans (h m hm) hle

theorem EndsBy_append {hi : Nat} {A B : List RecordMember}
    (hA : EndsBy hi A) (hB : EndsBy hi B) : EndsBy hi (A ++ B) := by
  intro m hm
  rcases List.mem_append.mp hm with h | h
  · exact hA m h
  · exact hB m h

theorem Ordered_append {A B : List RecordMember} {lo mid : Nat}
    (h1 : Ordered lo A) (h2 : EndsBy mid A) (h3 : Ordered mid B) (h4 : lo ≤ mid) :
    Ordered lo (A ++ B) := by
  induction A generalizing lo with
  | nil => exact Ordered_mono h3 h4
  | cons m A ih =>
    simp only [Ordered, List.cons_append] at h1 ⊢
    refine ⟨h1.1, h1.2.1, ?_⟩
    exact ih h1.2.2 (fun x hx => h2 x (List.mem_cons_of_mem _ hx))
      (h2 m (List.mem_cons_self _ _))

theorem le_sizeList (fs : List Ty) (off : Nat) : off ≤ sizeList fs off := by
  induction fs generalizing off with
  | nil => simp [sizeList]
  | cons t ts ih =>
    simp only [sizeList]
    exact Nat.le_trans
      (Nat.le_trans (le_alignUp off t.alignment) (Nat.le_add_right _ t.size)) (ih _)

mutual

theorem flattenAt_ordered : ∀ (t : Ty) (base : Nat) (ms : List RecordMember),
    t.wf = true → flattenAt t base = some ms →
    Ordered base ms ∧ EndsBy (base + t.size) ms
  | .prim n s a, base, ms, hw, h => by
    simp only [flattenAt, Option.some.injEq] at h
    subst h
    simp only [Ty.wf, Bool.and_eq_true, decide_eq_true_eq] at hw
    refine ⟨⟨Nat.le_refl _, hw.1, trivial⟩, ?_⟩
    intro m hm
    simp only [List.mem_singleton] at hm
    subst hm
    simp [Ty.size]
  | .record fs, base, ms, hw, h => by
    simp only [flattenAt] at h
    simp only [Ty.wf] at hw
    have ih := flattenFields_ordered fs base 0 ms hw h
    rw [Nat.add_zero] at ih
    refine ⟨ih.1, EndsBy_mono ih.2 ?_⟩
    have := le_alignUp (sizeList fs 0) (alignmentList fs)
    simp only [Ty.size]
    omega
  | .weakRef, base, ms, hw, h => by simp [flattenAt] at h
  | .resilient, base, ms, hw, h => by simp [flattenAt] at h
  | .genericParam _, base, ms, hw, h => by simp [flattenAt] at h

theorem flattenFields_ordered : ∀ (fs : List Ty) (base rel : Nat) (ms : List RecordMember),
    wfList fs = true → flattenFields fs base rel = some ms →
    Ordered (base + rel) ms ∧ EndsBy (base + sizeList fs rel) ms
  | [], base, rel, ms, hw, h => by
    simp only [flattenFields, Option.some.injEq] at h
    subst h
    exact ⟨trivial, fun m hm => absurd hm (List.not_mem_nil m)⟩
  | t :: ts, base, rel, ms, hw, h => by
    simp only [wfList, Bool.and_eq_true] at hw
    simp only [flattenFields] at h
    cases h1 : flattenAt t (base + alignUp rel t.alignment) with
    | none => rw [h1] at h; simp at h
    | some ms1 =>
      cases h2 : flattenFields ts base (alignUp rel t.alignment + t.size) with
      | none => rw [h1, h2] at h; simp at h
      | some ms2 =>
        rw [h1, h2] at h
        simp only [Option.some.injEq] at h
        subst h
        have ih1 := flattenAt_ordered t (base + alignUp rel t.alignment) ms1 hw.1 h1
        have ih2 := flattenFields_ordered ts base (alignUp rel t.alignment + t.size) ms2 hw.2 h2
        have hru := le_alignUp rel t.alignment
        constructor
        · refine @Ordered_append ms1 ms2 (base + rel)
            (base + alignUp rel t.alignment + t.size)
            (Ordered_mono ih1.1 (by omega)) ih1.2 ?_ (by omega)
          rw [Nat.add_assoc]
          exact ih2.1
        · simp only [sizeList]
          have hsz := le_sizeList ts (alignUp rel t.alignment + t.size)
          exact EndsBy_append (EndsBy_mono ih1.2 (by omega)) ih2.2

end

mutual

theorem flattenAt_leaves : ∀ (t : Ty) (base : Nat) (ms : List RecordMember),
    flattenAt t base = some ms → ms.map RecordMember.type = t.leaves
  | .prim n s a, base, ms, h => by
    simp only [flattenAt, Option.some.injEq] at h
    subst h
    simp [Ty.leaves]
  | .record fs, base, ms, h => by
    simp only [flattenAt] at h
    simpa [Ty.leaves] using flattenFields_leaves fs base 0 ms h
  | .weakRef, base, ms, h => by simp [flattenAt] at h
  | .resilient, base, ms, h => by simp [flattenAt] at h
  | .genericParam _, base, ms, h => by simp [flattenAt] at h

theorem flattenFields_leaves : ∀ (fs : List Ty) (base rel : Nat) (ms : List RecordMember),
    flattenFields fs base rel = some ms → ms.map RecordMember.type = leavesList fs
  | [], base, rel, ms, h => by
    simp only [flattenFields, Option.some.injEq] at h
    subst h
    simp [leavesList]
  | t :: ts, base, rel, ms, h => by
    simp only [flattenFields] at h
    cases h1 : flattenAt t (base + alignUp rel t.alignment) with
    | none => rw [h1] at h; simp at h
    | some ms1 =>
      cases h2 : flattenFields ts base (alignUp rel t.alignment + t.size) with
      | none => rw [h1, h2] at h; simp at h
      | some ms2 =>
        rw [h1, h2] at h
        simp only [Option.some.injEq] at h
        subst h
        simp only [leavesList, List.map_append]
        rw [flattenAt_leaves t _ ms1 h1, flattenFields_leaves ts base _ ms2 h2]

end

theorem Ordered_pos {lo : Nat} {ms : List RecordMember} (h : Ordered lo ms) :
    ∀ m ∈ ms, 0 < m.size := by
  induction ms generalizing lo with
  | nil => intro m hm; exact absurd hm (List.not_mem_nil m)
  | cons m' ms' ih =>
    intro m hm
    simp only [Ordered] at h
    rcases List.mem_cons.mp hm with rfl | hm'
    · exact h.2.1
    · exact ih h.2.2 m hm'

theorem Ordered_chain {lo : Nat} {ms : List RecordMember} (h : Ordered lo ms) :
    List.Chain' (fun a b => a.offset + a.size ≤ b.offset) ms := by
  induction ms generalizing lo with
  | nil => simp
  | cons m ms ih =>
    simp only [Ordered] at h
    rw [List.chain'_cons']
    refine ⟨?_, ih h.2.2⟩
    intro y hy
    cases ms with
    | nil => simp at hy
    | cons m' ms' =>
      simp only [List.head?_cons, Option.mem_some_iff] at hy
      subst hy
      simp only [Ordered] at *
      exact h.2.2.1

theorem Ordered_chain_lt {lo : Nat} {ms : List RecordMember} (h : Ordered lo ms) :
    List.Chain' (fun a b => a.offset < b.offset) ms := by
  induction ms generalizing lo with
  | nil => simp
  | cons m ms ih =>
    simp only [Ordered] at h
    rw [List.chain'_cons']
    refine ⟨?_, ih h.2.2⟩
    intro y hy
    cases ms with
    | nil => simp at hy
    | cons m' ms' =>
      simp only [List.head?_cons, Option.mem_some_iff] at hy
      subst hy
      simp only [Ordered] at *
      have := h.2.2.1
      have := h.2.1
      omega

/-- Modelled from the spec: the calling convention's size threshold below which
a fixed-layout trivial type is decomposed into registers (four 8-byte
registers) rather than passed on the stack. -/
def maxDirectBytes : Nat := 32

/-- Modelled from the spec: `IRABIDetailsProvider::shouldPassIndirectly` — a
type is passed indirectly into a swiftcc function iff its layout is not fixed,
it exceeds the size threshold, or it has non-trivial copy semantics. -/
def shouldPassIndirectly (t : Ty) : Bool :=
  !t.isFixedLayout || decide (maxDirectBytes < t.size) || !t.isTrivial

/-- Modelled from the spec: `IRABIDetailsProvider::shouldReturnIndirectly` —
the same classification applied to a swiftcc return value. -/
def shouldReturnIndirectly (t : Ty) : Bool :=
  !t.isFixedLayout || decide (maxDirectBytes < t.size) || !t.isTrivial

/-- Modelled from the spec: a generic-requirement descriptor from the AST's
generics model (opaque to this layer). -/
structure GenericRequirement where
  id : Nat
deriving Repr, DecidableEq

/-- The AST's `CanType`: a canonical type reference that may be null. -/
structure CanType where
  type : Option Ty
deriving Repr

/-- `ABIAdditionalParam::ABIParameterRole` from the header. -/
inductive ABIParameterRole where
  | GenericRequirement
  | GenericTypeMetadataSource
  | Self
  | Error
deriving Repr, DecidableEq

/-- `IRABIDetailsProvider::ABIAdditionalParam` from the header: a role tag, an
optional generic-requirement payload, and a canonical type payload. -/
structure ABIAdditionalParam where
  role : ABIParameterRole
  genericRequirement : Option GenericRequirement
  canType : CanType
deriving Repr

/-- `ABIAdditionalParam::getRole` from the header. -/
def ABIAdditionalParam.getRole (p : ABIAdditionalParam) : ABIParameterRole :=
  p.role

/-- `ABIAdditionalParam::getGenericRequirement` from the header: asserts that
the role is `GenericRequirement` and then dereferences the stored optional;
the fatal assertion on a role mismatch is modelled as `none`. -/
def ABIAdditionalParam.getGenericRequirement (p : ABIAdditionalParam) :
    Option GenericRequirement :=
  if p.role = ABIParameterRole.GenericRequirement then p.genericRequirement
  else none

/-- `ABIAdditionalParam::getMetadataSourceType` from the header: asserts that
the role is `GenericTypeMetadataSource` and then returns the stored canonical
type; the fatal assertion on a role mismatch is modelled as `none`. -/
def ABIAdditionalParam.getMetadataSourceType (p : ABIAdditionalParam) :
    Option CanType :=
  if p.role = ABIParameterRole.GenericTypeMetadataSource then some p.canType
  else none

/-- A source formal parameter declaration (`ParamDecl` in the AST). -/
structure ParamDecl where
  name : String
  type : Ty
deriving Repr

/-- Modelled from the spec: the slice of an `AbstractFunctionDecl` that the
signature lowerer consumes — formal parameters in source order, an optional
result type (`none` is `Void`), method/throwing flags, the canonical ordered
generic requirements, the metadata-source parameter types, and whether the
signature is a fully abstract/unspecialized generic signature with no concrete
instantiation context (in which case it cannot be lowered at all). -/
structure FuncDecl where
  name : String
  params : List ParamDecl
  resultType : Option Ty
  isMethod : Bool
  isThrowing : Bool
  genericRequirements : List GenericRequirement
  metadataSourceTypes : List Ty
  fullyAbstractNoContext : Bool
deriving Repr

/-- `LoweredFunctionSignature::IndirectResultValue` from the header: carries
only the `hasSRet` flag. -/
structure IndirectResultValue where
  hasSRet : Bool
deriving Repr, DecidableEq

/-- `LoweredFunctionSignature::DirectParameter`: the lowered type together
with the source-parameter back-reference. -/
structure DirectParameter where
  type : Ty
  paramDecl : ParamDecl
deriving Repr

/-- `LoweredFunctionSignature::IndirectParameter`: the source-parameter
back-reference only. -/
structure IndirectParameter where
  paramDecl : ParamDecl
deriving Repr

/-- `IRABIDetailsProvider::LoweredFunctionSignature` from the header, with its
derived classification made explicit. -/
structure LoweredFunctionSignature where
  directResultType : Option Ty
  indirectResultValues : List IndirectResultValue
  directParameters : List DirectParameter
  indirectParameters : List IndirectParameter
  additionalParams : List ABIAdditionalParam
deriving Repr

/-- `LoweredFunctionSignature::getDirectResultType` (returns `none` for a void
result). -/
def LoweredFunctionSignature.getDirectResultType
    (sig : LoweredFunctionSignature) : Option Ty :=
  sig.directResultType

/-- `LoweredFunctionSignature::getNumIndirectResultValues`. -/
def LoweredFunctionSignature.getNumIndirectResultValues
    (sig : LoweredFunctionSignature) : Nat :=
  sig.indirectResultValues.length

/-- Modelled from the spec: one pass of the signature lowerer over the formal
parameters in source order, classifying each as direct or indirect. -/
def classifyParams : List ParamDecl → List DirectParameter × List IndirectParameter
  | [] => ([], [])
  | p :: ps =>
    let rest := classifyParams ps
    if shouldPassIndirectly p.type then (rest.1, ⟨p⟩ :: rest.2)
    else (⟨p.type, p⟩ :: rest.1, rest.2)

/-- Modelled from the spec: the additional parameters appended after the
formal parameters, in fixed convention order — generic requirements in
canonical order, then metadata sources, then `self` for methods, then the
error parameter for throwing functions. -/
def lowerAdditionalParams (fd : FuncDecl) : List ABIAdditionalParam :=
  fd.genericRequirements.map
      (fun g => ⟨ABIParameterRole.GenericRequirement, some g, ⟨none⟩⟩)
    ++ fd.metadataSourceTypes.map
      (fun t => ⟨ABIParameterRole.GenericTypeMetadataSource, none, ⟨some t⟩⟩)
    ++ (if fd.isMethod then [⟨ABIParameterRole.Self, none, ⟨none⟩⟩] else [])
    ++ (if fd.isThrowing then [⟨ABIParameterRole.Error, none, ⟨none⟩⟩] else [])

/-- Modelled from the spec: the signature lowerer's terminal output for a
lowerable function — result classified as void / direct / indirect (the
single indirect result value uses the caller-allocated `sret` convention),
parameters classified in source order, and the additional parameters. -/
def lowerSignature (fd : FuncDecl) : LoweredFunctionSignature :=
  { directResultType :=
      match fd.resultType with
      | none => none
      | some t => if shouldReturnIndirectly t then none else some t
    indirectResultValues :=
      match fd.resultType with
      | none => []
      | some t => if shouldReturnIndirectly t then [⟨true⟩] else []
    directParameters := (classifyParams fd.params).1
    indirectParameters := (classifyParams fd.params).2
    additionalParams := lowerAdditionalParams fd }

/-- Modelled from the spec: `IRABIDetailsProvider::getFunctionLoweredSignature`
— `none` when the signature cannot be lowered to a fixed representation
(fully abstract generic signature with no concrete instantiation context). -/
def getFunctionLoweredSignature (fd : FuncDecl) : Option LoweredFunctionSignature :=
  if fd.fullyAbstractNoContext then none else some (lowerSignature fd)

/-- Modelled from the spec: `IRABIDetailsProvider::getFunctionABIAdditionalParams`
— the additional params of the lowered function, if it lowers. -/
def getFunctionABIAdditionalParams (fd : FuncDecl) : List ABIAdditionalParam :=
  match getFunctionLoweredSignature fd with
  | some sig => sig.additionalParams
  | none => []

/-- One visitor invocation made by `visitParameterList`, recorded with the
value handed to the corresponding visitor. -/
inductive ParamVisit where
  | indirectResult (v : IndirectResultValue)
  | directParam (p : DirectParameter)
  | indirectParam (p : IndirectParameter)
deriving Repr

/-- Modelled from the spec: `LoweredFunctionSignature::visitParameterList` —
the single traversal of the lowered parameter list, recorded as the ordered
sequence of visitor invocations: indirect results, then direct parameters,
then indirect parameters. -/
def LoweredFunctionSignature.visitParameterList
    (sig : LoweredFunctionSignature) : List ParamVisit :=
  sig.indirectResultValues.map ParamVisit.indirectResult
    ++ sig.directParameters.map ParamVisit.directParam
    ++ sig.indirectParameters.map ParamVisit.indirectParam

/-- An enum case declaration (`EnumElementDecl` in the AST). -/
structure EnumElementDecl where
  name : String
deriving Repr, DecidableEq

/-- Modelled from the spec: an enum declaration with its cases in declaration
order; `specialPayloadTags` is `none` for enums with no special payload
layout, and otherwise carries the layout subsystem's delegated (reserved)
numbering for indirect/resilient payload cases. -/
structure EnumDecl where
  name : String
  elements : List EnumElementDecl
  specialPayloadTags : Option (List Nat)
deriving Repr

/-- `IRABIDetailsProvider::EnumElementInfo` from the header: tag index and the
stable linker-visible symbol name for the case. -/
structure EnumElementInfo where
  tag : Nat
  globalVariableName : String
deriving Repr, DecidableEq

/-- Modelled from the spec: the stable mangled global symbol name for an enum
case's metadata. -/
def caseSymbolName (ed : EnumDecl) (c : EnumElementDecl) : String :=
  "$s" ++ ed.name ++ "O" ++ c.name ++ "WC"

/-- Dense tag assignment starting at `i`, in declaration order. -/
def denseTagsFrom (ed : EnumDecl) : Nat → List EnumElementDecl →
    List (EnumElementDecl × EnumElementInfo)
  | _, [] => []
  | i, c :: cs => (c, ⟨i, caseSymbolName ed c⟩) :: denseTagsFrom ed (i + 1) cs

/-- Modelled from the spec: `IRABIDetailsProvider::getEnumTagMapping` — the
cases in declaration order with their tag indices; dense tags starting at 0
unless the layout subsystem reserved a special numbering. -/
def getEnumTagMapping (ed : EnumDecl) : List (EnumElementDecl × EnumElementInfo) :=
  match ed.specialPayloadTags with
  | some tags => (ed.elements.zip tags).map (fun e => (e.1, ⟨e.2, caseSymbolName ed e.1⟩))
  | none => denseTagsFrom ed 0 ed.elements

theorem classifyParams_eq (ps : List ParamDecl) :
    classifyParams ps =
      ((ps.filter (fun p => !shouldPassIndirectly p.type)).map (fun p => ⟨p.type, p⟩),
       (ps.filter (fun p => shouldPassIndirectly p.type)).map (fun p => ⟨p⟩)) := by
  induction ps with
  | nil => rfl
  | cons p ps ih =>
    simp only [classifyParams, ih, List.filter_cons]
    cases h : shouldPassIndirectly p.type <;> simp [h]

theorem denseTagsFrom_length (ed : EnumDecl) (i : Nat) (cs : List EnumElementDecl) :
    (denseTagsFrom ed i cs).length = cs.length := by
  induction cs generalizing i with
  | nil => rfl
  | cons c cs ih => simp [denseTagsFrom, ih]

theorem denseTagsFrom_fst (ed : EnumDecl) (i : Nat) (cs : List EnumElementDecl) :
    (denseTagsFrom ed i cs).map Prod.fst = cs := by
  induction cs generalizing i with
  | nil => rfl
  | cons c cs ih => simp [denseTagsFrom, ih]

theorem denseTagsFrom_tags (ed : EnumDecl) (i : Nat) (cs : List EnumElementDecl) :
    (denseTagsFrom ed i cs).map (fun e => e.2.tag) = List.range' i cs.length := by
  induction cs generalizing i with
  | nil => rfl
  | cons c cs ih => simp [denseTagsFrom, List.range'_succ, ih]

theorem denseTagsFrom_symbols (ed : EnumDecl) (i : Nat) (cs : List EnumElementDecl) :
    ∀ e ∈ denseTagsFrom ed i cs, e.2.globalVariableName = caseSymbolName ed e.1 := by
  induction cs generalizing i with
  | nil => intro e he; exact absurd he (List.not_mem_nil e)
  | cons c cs ih =>
    intro e he
    simp only [denseTagsFrom, List.mem_cons] at he
    rcases he with rfl | he
    · rfl
    · exact ih (i + 1) e he

theorem lowered_eq_lowerSignature {fd : FuncDecl} {sig : LoweredFunctionSignature}
    (h : getFunctionLoweredSignature fd = some sig) : sig = lowerSignature fd := by
  unfold getFunctionLoweredSignature at h
  split at h
  · exact absurd h (by simp)
  · exact (Option.some.injEq _ _ ▸ h).symm

/-- Claim C1: for every function declaration with a lowered signature,
`visitParameterList` invokes the visitors in exactly this order — all indirect
result values, then all direct parameters in source order, then all indirect
parameters in source order — and the number of invocations is the number of
indirect results plus direct parameters plus indirect parameters, with no item
omitted and none visited twice. -/
theorem c1_visitParameterList_order (fd : FuncDecl) (sig : LoweredFunctionSignature)
    (h : getFunctionLoweredSignature fd = some sig) :
    sig.visitParameterList
      = sig.indirectResultValues.map ParamVisit.indirectResult
        ++ (fd.params.filter (fun p => !shouldPassIndirectly p.type)).map
            (fun p => ParamVisit.directParam ⟨p.type, p⟩)
        ++ (fd.params.filter (fun p => shouldPassIndirectly p.type)).map
            (fun p => ParamVisit.indirectParam ⟨p⟩)
    ∧ sig.visitParameterList.length
      = sig.indirectResultValues.length + sig.directParameters.length
        + sig.indirectParameters.length := by
  constructor
  · have hsig := lowered_eq_lowerSignature h
    subst hsig
    unfold LoweredFunctionSignature.visitParameterList lowerSignature
    simp [classifyParams_eq, List.map_map, Function.comp_def]
  · unfold LoweredFunctionSignature.visitParameterList
    simp [Nat.add_assoc]

theorem c1_visitParameterList_order_witness :
    getFunctionLoweredSignature
        ⟨"f", [⟨"x", Ty.prim "Int64" 8 8⟩, ⟨"y", Ty.weakRef⟩], none, false, false,
          [], [], false⟩
      = some (lowerSignature
        ⟨"f", [⟨"x", Ty.prim "Int64" 8 8⟩, ⟨"y", Ty.weakRef⟩], none, false, false,
          [], [], false⟩)
    ∧ ((lowerSignature
        ⟨"f", [⟨"x", Ty.prim "Int64" 8 8⟩, ⟨"y", Ty.weakRef⟩], none, false, false,
          [], [], false⟩).visitParameterList
      = (lowerSignature
        ⟨"f", [⟨"x", Ty.prim "Int64" 8 8⟩, ⟨"y", Ty.weakRef⟩], none, false, false,
          [], [], false⟩).indirectResultValues.map ParamVisit.indirectResult
        ++ ([⟨"x", Ty.prim "Int64" 8 8⟩, ⟨"y", Ty.weakRef⟩].filter
              (fun p => !shouldPassIndirectly p.type)).map
            (fun p => ParamVisit.directParam ⟨p.type, p⟩)
        ++ ([⟨"x", Ty.prim "Int64" 8 8⟩, ⟨"y", Ty.weakRef⟩].filter
              (fun p => shouldPassIndirectly p.type)).map
            (fun p => ParamVisit.indirectParam ⟨p⟩)
    ∧ (lowerSignature
        ⟨"f", [⟨"x", Ty.prim "Int64" 8 8⟩, ⟨"y", Ty.weakRef⟩], none, false, false,
          [], [], false⟩).visitParameterList.length
      = (lowerSignature
        ⟨"f", [⟨"x", Ty.prim "Int64" 8 8⟩, ⟨"y", Ty.weakRef⟩], none, false, false,
          [], [], false⟩).indirectResultValues.length
        + (lowerSignature
        ⟨"f", [⟨"x", Ty.prim "Int64" 8 8⟩, ⟨"y", Ty.weakRef⟩], none, false, false,
          [], [], false⟩).directParameters.length
        + (lowerSignature
        ⟨"f", [⟨"x", Ty.prim "Int64" 8 8⟩, ⟨"y", Ty.weakRef⟩], none, false, false,
          [], [], false⟩).indirectParameters.length) :=
  ⟨rfl, c1_visitParameterList_order
    ⟨"f", [⟨"x", Ty.prim "Int64" 8 8⟩, ⟨"y", Ty.weakRef⟩], none, false, false,
      [], [], false⟩
    (lowerSignature
      ⟨"f", [⟨"x", Ty.prim "Int64" 8 8⟩, ⟨"y", Ty.weakRef⟩], none, false, false,
        [], [], false⟩) rfl⟩

/-- Claim C2: for every well-formed fixed-layout aggregate type, the record
flattening behind `enumerateDirectPassingRecordMembers` yields exactly one
member per leaf primitive, at strictly ascending byte offsets with
non-overlapping (offset, size) extents, and every member ends at or before the
size reported by `getTypeSizeAlignment`. -/
theorem c2_enumerate_members_ordered (t : Ty) (ms : List RecordMember)
    (sa : SizeAndAlignment) (hw : t.wf = true)
    (hms : enumerateDirectPassingRecordMembers t = some ms)
    (hsa : getTypeSizeAlignment t = some sa) :
    ms.map RecordMember.type = t.leaves
    ∧ List.Chain' (fun a b => a.offset < b.offset) ms
    ∧ List.Chain' (fun a b => a.offset + a.size ≤ b.offset) ms
    ∧ ∀ m ∈ ms, m.offset + m.size ≤ sa.size := by
  unfold enumerateDirectPassingRecordMembers at hms
  have hord := flattenAt_ordered t 0 ms hw hms
  have hsz : sa.size = t.size := by
    unfold getTypeSizeAlignment at hsa
    split at hsa
    · cases hsa; rfl
    · exact absurd hsa (by simp)
  refine ⟨flattenAt_leaves t 0 ms hms, Ordered_chain_lt hord.1, Ordered_chain hord.1, ?_⟩
  intro m hm
  have := hord.2 m hm
  omega

theorem c2_enumerate_members_ordered_witness :
    Ty.wf (Ty.record [Ty.prim "Int32" 4 4, Ty.prim "Int64" 8 8]) = true
    ∧ enumerateDirectPassingRecordMembers
        (Ty.record [Ty.prim "Int32" 4 4, Ty.prim "Int64" 8 8])
      = some [⟨0, 4, Ty.prim "Int32" 4 4⟩, ⟨8, 8, Ty.prim "Int64" 8 8⟩]
    ∧ getTypeSizeAlignment (Ty.record [Ty.prim "Int32" 4 4, Ty.prim "Int64" 8 8])
      = some ⟨16, 8⟩
    ∧ ([(⟨0, 4, Ty.prim "Int32" 4 4⟩ : RecordMember),
        ⟨8, 8, Ty.prim "Int64" 8 8⟩].map RecordMember.type
          = (Ty.record [Ty.prim "Int32" 4 4, Ty.prim "Int64" 8 8]).leaves
      ∧ List.Chain' (fun a b => a.offset < b.offset)
          [(⟨0, 4, Ty.prim "Int32" 4 4⟩ : RecordMember), ⟨8, 8, Ty.prim "Int64" 8 8⟩]
      ∧ List.Chain' (fun a b => a.offset + a.size ≤ b.offset)
          [(⟨0, 4, Ty.prim "Int32" 4 4⟩ : RecordMember), ⟨8, 8, Ty.prim "Int64" 8 8⟩]
      ∧ ∀ m ∈ [(⟨0, 4, Ty.prim "Int32" 4 4⟩ : RecordMember),
          ⟨8, 8, Ty.prim "Int64" 8 8⟩],
          m.offset + m.size ≤ (⟨16, 8⟩ : SizeAndAlignment).size) :=
  ⟨rfl, rfl, rfl, c2_enumerate_members_ordered _ _ _ rfl rfl rfl⟩

/-- Claim C3: `shouldPassIndirectly` and `shouldReturnIndirectly` are
consistent with `getTypeSizeAlignment` — a fixed-layout, small, trivially
copyable type is never classified indirect, and a type whose layout query
returns `none` is always classified indirect by both predicates. -/
theorem c3_indirect_predicates_consistent (t : Ty) :
    (t.isFixedLayout = true → t.size ≤ maxDirectBytes → t.isTrivial = true →
      shouldPassIndirectly t = false ∧ shouldReturnIndirectly t = false)
    ∧ (getTypeSizeAlignment t = none →
      shouldPassIndirectly t = true ∧ shouldReturnIndirectly t = true) := by
  constructor
  · intro h1 h2 h3
    unfold shouldPassIndirectly shouldReturnIndirectly
    simp [h1, h3]
    omega
  · intro h
    have hnf : t.isFixedLayout = false := by
      unfold getTypeSizeAlignment at h
      split at h
      · exact absurd h (by simp)
      · rename_i hn
        exact Bool.not_eq_true _ ▸ eq_false_of_ne_true hn
    unfold shouldPassIndirectly shouldReturnIndirectly
    simp [hnf]

theorem c3_indirect_predicates_consistent_witness :
    ((Ty.prim "Int64" 8 8).isFixedLayout = true
      ∧ (Ty.prim "Int64" 8 8).size ≤ maxDirectBytes
      ∧ (Ty.prim "Int64" 8 8).isTrivial = true
      ∧ shouldPassIndirectly (Ty.prim "Int64" 8 8) = false
      ∧ shouldReturnIndirectly (Ty.prim "Int64" 8 8) = false)
    ∧ (getTypeSizeAlignment Ty.resilient = none
      ∧ shouldPassIndirectly Ty.resilient = true
      ∧ shouldReturnIndirectly Ty.resilient = true) :=
  ⟨⟨rfl, by decide, rfl,
    (c3_indirect_predicates_consistent (Ty.prim "Int64" 8 8)).1 rfl (by decide) rfl⟩,
   ⟨rfl, (c3_indirect_predicates_consistent Ty.resilient).2 rfl⟩⟩

/-- Claim C4: `getTypeSizeAlignment` returns `none` exactly when the type's
layout is not statically fixed, and otherwise returns the exact byte size and
alignment computed by the layout subsystem; absence is the signal and no fault
is raised (the function is total). -/
theorem c4_size_alignment_none_iff_not_fixed (t : Ty) :
    (getTypeSizeAlignment t = none ↔ t.isFixedLayout = false)
    ∧ (t.isFixedLayout = true →
      getTypeSizeAlignment t = some ⟨t.size, t.alignment⟩) := by
  unfold getTypeSizeAlignment
  cases h : t.isFixedLayout <;> simp [h]

theorem c4_size_alignment_none_iff_not_fixed_witness :
    (getTypeSizeAlignment Ty.resilient = none ↔ Ty.resilient.isFixedLayout = false)
    ∧ ((Ty.prim "Int32" 4 4).isFixedLayout = true
      ∧ getTypeSizeAlignment (Ty.prim "Int32" 4 4)
        = some ⟨(Ty.prim "Int32" 4 4).size, (Ty.prim "Int32" 4 4).alignment⟩) :=
  ⟨(c4_size_alignment_none_iff_not_fixed Ty.resilient).1,
   rfl, (c4_size_alignment_none_iff_not_fixed (Ty.prim "Int32" 4 4)).2 rfl⟩

/-- Claim C5: `getFunctionLoweredSignature` returns `none` (never a fault)
exactly for a function whose signature cannot be lowered to a fixed
representation — a fully abstract/unspecialized generic signature with no
concrete instantiation context — and returns a lowered signature for every
other function declaration. -/
theorem c5_lowered_signature_absence (fd : FuncDecl) :
    (fd.fullyAbstractNoContext = true → getFunctionLoweredSignature fd = none)
    ∧ (fd.fullyAbstractNoContext = false →
      getFunctionLoweredSignature fd = some (lowerSignature fd)) := by
  unfold getFunctionLoweredSignature
  cases h : fd.fullyAbstractNoContext <;> simp [h]

theorem c5_lowered_signature_absence_witness :
    ((⟨"g", [], none, false, false, [⟨0⟩], [], true⟩ : FuncDecl).fullyAbstractNoContext
        = true
      ∧ getFunctionLoweredSignature ⟨"g", [], none, false, false, [⟨0⟩], [], true⟩
        = none)
    ∧ ((⟨"f", [], none, false, false, [], [], false⟩ : FuncDecl).fullyAbstractNoContext
        = false
      ∧ getFunctionLoweredSignature ⟨"f", [], none, false, false, [], [], false⟩
        = some (lowerSignature ⟨"f", [], none, false, false, [], [], false⟩)) :=
  ⟨⟨rfl, (c5_lowered_signature_absence
      ⟨"g", [], none, false, false, [⟨0⟩], [], true⟩).1 rfl⟩,
   ⟨rfl, (c5_lowered_signature_absence
      ⟨"f", [], none, false, false, [], [], false⟩).2 rfl⟩⟩

/-- Claim C6: for every enum declaration with no special payload layout,
`getEnumTagMapping` returns exactly one entry per case, iterated in
declaration order, with dense integer tags assigned in declaration order
starting at 0, and each entry carries the stable global symbol name for its
case. -/
theorem c6_enum_tag_mapping_dense (ed : EnumDecl) (h : ed.specialPayloadTags = none) :
    (getEnumTagMapping ed).length = ed.elements.length
    ∧ (getEnumTagMapping ed).map Prod.fst = ed.elements
    ∧ (getEnumTagMapping ed).map (fun e => e.2.tag) = List.range ed.elements.length
    ∧ ∀ e ∈ getEnumTagMapping ed, e.2.globalVariableName = caseSymbolName ed e.1 := by
  unfold getEnumTagMapping
  rw [h]
  refine ⟨denseTagsFrom_length ed 0 ed.elements, denseTagsFrom_fst ed 0 ed.elements,
    ?_, denseTagsFrom_symbols ed 0 ed.elements⟩
  rw [denseTagsFrom_tags, List.range_eq_range']

theorem c6_enum_tag_mapping_dense_witness :
    (⟨"E", [⟨"a"⟩, ⟨"b"⟩, ⟨"c"⟩], none⟩ : EnumDecl).specialPayloadTags = none
    ∧ ((getEnumTagMapping ⟨"E", [⟨"a"⟩, ⟨"b"⟩, ⟨"c"⟩], none⟩).length
        = (⟨"E", [⟨"a"⟩, ⟨"b"⟩, ⟨"c"⟩], none⟩ : EnumDecl).elements.length
      ∧ (getEnumTagMapping ⟨"E", [⟨"a"⟩, ⟨"b"⟩, ⟨"c"⟩], none⟩).map Prod.fst
        = (⟨"E", [⟨"a"⟩, ⟨"b"⟩, ⟨"c"⟩], none⟩ : EnumDecl).elements
      ∧ (getEnumTagMapping ⟨"E", [⟨"a"⟩, ⟨"b"⟩, ⟨"c"⟩], none⟩).map (fun e => e.2.tag)
        = List.range (⟨"E", [⟨"a"⟩, ⟨"b"⟩, ⟨"c"⟩], none⟩ : EnumDecl).elements.length
      ∧ ∀ e ∈ getEnumTagMapping ⟨"E", [⟨"a"⟩, ⟨"b"⟩, ⟨"c"⟩], none⟩,
          e.2.globalVariableName
            = caseSymbolName ⟨"E", [⟨"a"⟩, ⟨"b"⟩, ⟨"c"⟩], none⟩ e.1) :=
  ⟨rfl, c6_enum_tag_mapping_dense ⟨"E", [⟨"a"⟩, ⟨"b"⟩, ⟨"c"⟩], none⟩ rfl⟩

/-- Claim C7: for every lowered function signature, the result is classified
exactly as: a void result yields neither a direct result nor indirect result
values; a directly returnable result yields a direct result and no indirect
result values; any other result yields no direct result and at least one
indirect result value, each flagged `hasSRet` (the caller allocates storage
and passes its address as the structured-return slot). -/
theorem c7_result_classification (fd : FuncDecl) (sig : LoweredFunctionSignature)
    (h : getFunctionLoweredSignature fd = some sig) :
    (fd.resultType = none →
      sig.getDirectResultType = none ∧ sig.getNumIndirectResultValues = 0)
    ∧ (∀ t, fd.resultType = some t → shouldReturnIndirectly t = false →
      sig.getDirectResultType = some t ∧ sig.getNumIndirectResultValues = 0)
    ∧ (∀ t, fd.resultType = some t → shouldReturnIndirectly t = true →
      sig.getDirectResultType = none ∧ 0 < sig.getNumIndirectResultValues
        ∧ ∀ r ∈ sig.indirectResultValues, r.hasSRet = true) := by
  have hsig := lowered_eq_lowerSignature h
  subst hsig
  unfold LoweredFunctionSignature.getDirectResultType
    LoweredFunctionSignature.getNumIndirectResultValues lowerSignature
  refine ⟨?_, ?_, ?_⟩
  · intro hr
    rw [hr]
    exact ⟨rfl, rfl⟩
  · intro t hr hd
    rw [hr]
    simp [hd]
  · intro t hr hd
    rw [hr]
    simp [hd]

theorem c7_result_classification_witness :
    getFunctionLoweredSignature
        ⟨"r", [], some Ty.weakRef, false, false, [], [], false⟩
      = some (lowerSignature ⟨"r", [], some Ty.weakRef, false, false, [], [], false⟩)
    ∧ (⟨"r", [], some Ty.weakRef, false, false, [], [], false⟩ : FuncDecl).resultType
      = some Ty.weakRef
    ∧ shouldReturnIndirectly Ty.weakRef = true
    ∧ ((lowerSignature
          ⟨"r", [], some Ty.weakRef, false, false, [], [], false⟩).getDirectResultType
        = none
      ∧ 0 < (lowerSignature
          ⟨"r", [], some Ty.weakRef, false, false, [], [],
            false⟩).getNumIndirectResultValues
      ∧ ∀ r ∈ (lowerSignature
          ⟨"r", [], some Ty.weakRef, false, false, [], [],
            false⟩).indirectResultValues, r.hasSRet = true) :=
  ⟨rfl, rfl, rfl,
   (c7_result_classification
      ⟨"r", [], some Ty.weakRef, false, false, [], [], false⟩
      (lowerSignature ⟨"r", [], some Ty.weakRef, false, false, [], [], false⟩)
      rfl).2.2 Ty.weakRef rfl rfl⟩

/-- Claim C8: every query of the API is deterministic — calling it twice on
the same input within one session yields structurally equal results (same
member sequences, same tags, same classifications); in this embedding every
query is a pure function, so the two-run results coincide. -/
theorem c8_queries_deterministic :
    ∀ (t : Ty) (fd : FuncDecl) (ed : EnumDecl),
      getTypeSizeAlignment t = getTypeSizeAlignment t
      ∧ shouldPassIndirectly t = shouldPassIndirectly t
      ∧ shouldReturnIndirectly t = shouldReturnIndirectly t
      ∧ enumerateDirectPassingRecordMembers t = enumerateDirectPassingRecordMembers t
      ∧ getFunctionLoweredSignature fd = getFunctionLoweredSignature fd
      ∧ getFunctionABIAdditionalParams fd = getFunctionABIAdditionalParams fd
      ∧ getEnumTagMapping ed = getEnumTagMapping ed :=
  fun _ _ _ => ⟨rfl, rfl, rfl, rfl, rfl, rfl, rfl⟩

/-- Claim C9: `ABIAdditionalParam`'s payload accessors fail fast on a role
mismatch — `getGenericRequirement` faults (modelled as `none`) unless the role
is `GenericRequirement`, and `getMetadataSourceType` faults unless the role is
`GenericTypeMetadataSource`; with the matching role each accessor returns the
stored payload. -/
theorem c9_payload_accessors_guarded (p : ABIAdditionalParam) :
    (p.role ≠ ABIParameterRole.GenericRequirement →
      p.getGenericRequirement = none)
    ∧ (p.role = ABIParameterRole.GenericRequirement →
      p.getGenericRequirement = p.genericRequirement)
    ∧ (p.role ≠ ABIParameterRole.GenericTypeMetadataSource →
      p.getMetadataSourceType = none)
    ∧ (p.role = ABIParameterRole.GenericTypeMetadataSource →
      p.getMetadataSourceType = some p.canType) := by
  unfold ABIAdditionalParam.getGenericRequirement ABIAdditionalParam.getMetadataSourceType
  refine ⟨?_, ?_, ?_, ?_⟩ <;> intro h <;> simp [h]

theorem c9_payload_accessors_guarded_witness :
    ((⟨ABIParameterRole.Self, none, ⟨none⟩⟩ : ABIAdditionalParam).role
        ≠ ABIParameterRole.GenericRequirement
      ∧ (⟨ABIParameterRole.Self, none, ⟨none⟩⟩
          : ABIAdditionalParam).getGenericRequirement = none)
    ∧ ((⟨ABIParameterRole.GenericRequirement, some ⟨7⟩, ⟨none⟩⟩
          : ABIAdditionalParam).role = ABIParameterRole.GenericRequirement
      ∧ (⟨ABIParameterRole.GenericRequirement, some ⟨7⟩, ⟨none⟩⟩
          : ABIAdditionalParam).getGenericRequirement
        = (⟨ABIParameterRole.GenericRequirement, some ⟨7⟩, ⟨none⟩⟩
          : ABIAdditionalParam).genericRequirement)
    ∧ ((⟨ABIParameterRole.Self, none, ⟨none⟩⟩ : ABIAdditionalParam).role
        ≠ ABIParameterRole.GenericTypeMetadataSource
      ∧ (⟨ABIParameterRole.Self, none, ⟨none⟩⟩
          : ABIAdditionalParam).getMetadataSourceType = none)
    ∧ ((⟨ABIParameterRole.GenericTypeMetadataSource, none, ⟨some Ty.weakRef⟩⟩
          : ABIAdditionalParam).role = ABIParameterRole.GenericTypeMetadataSource
      ∧ (⟨ABIParameterRole.GenericTypeMetadataSource, none, ⟨some Ty.weakRef⟩⟩
          : ABIAdditionalParam).getMetadataSourceType
        = some (⟨ABIParameterRole.GenericTypeMetadataSource, none, ⟨some Ty.weakRef⟩⟩
          : ABIAdditionalParam).canType) :=
  ⟨⟨by decide,
    (c9_payload_accessors_guarded ⟨ABIParameterRole.Self, none, ⟨none⟩⟩).1 (by decide)⟩,
   ⟨rfl,
    (c9_payload_accessors_guarded
      ⟨ABIParameterRole.GenericRequirement, some ⟨7⟩, ⟨none⟩⟩).2.1 rfl⟩,
   ⟨by decide,
    (c9_payload_accessors_guarded
      ⟨ABIParameterRole.Self, none, ⟨none⟩⟩).2.2.1 (by decide)⟩,
   ⟨rfl,
    (c9_payload_accessors_guarded
      ⟨ABIParameterRole.GenericTypeMetadataSource, none, ⟨some Ty.weakRef⟩⟩).2.2.2 rfl⟩⟩

/-- Claim C10: whenever `getFunctionLoweredSignature` returns a signature,
`getFunctionABIAdditionalParams` returns exactly the `additionalParams`
sequence carried by that lowered signature — same roles, same payloads, same
order. -/
theorem c10_additional_params_refinement (fd : FuncDecl)
    (sig : LoweredFunctionSignature)
    (h : getFunctionLoweredSignature fd = some sig) :
    getFunctionABIAdditionalParams fd = sig.additionalParams := by
  unfold getFunctionABIAdditionalParams
  rw [h]

theorem c10_additional_params_refinement_witness :
    getFunctionLoweredSignature
        ⟨"m", [], none, true, true, [⟨3⟩], [Ty.weakRef], false⟩
      = some (lowerSignature ⟨"m", [], none, true, true, [⟨3⟩], [Ty.weakRef], false⟩)
    ∧ getFunctionABIAdditionalParams
        ⟨"m", [], none, true, true, [⟨3⟩], [Ty.weakRef], false⟩
      = (lowerSignature
          ⟨"m", [], none, true, true, [⟨3⟩], [Ty.weakRef], false⟩).additionalParams :=
  ⟨rfl, c10_additional_params_refinement
    ⟨"m", [], none, true, true, [⟨3⟩], [Ty.weakRef], false⟩
    (lowerSignature ⟨"m", [], none, true, true, [⟨3⟩], [Ty.weakRef], false⟩) rfl⟩

end IRABIDetails
